import Mathlib

/-!
# Verification of the `/poetry` bot pre-rendering worker (`src/index.js`)

Shallow embedding of the Cloudflare worker in `src/index.js`.  Strings are
modelled as `List Char`.  Each JavaScript regex-replace step of the two
normalizers (`createSlug`, `cleanTitleForMatch`), the route test, the bot
classifier, the collection/book/poem resolution and the top-level `fetch`
handler are translated operation by operation.

Modelling conventions, fixed once here:

* JS `String.prototype.toLowerCase` is modelled by `Char.toLower`
  (the basic-latin case mapping; the worker's data and routes are ASCII,
  and every character class in the source is ASCII, so characters outside
  `A`–`Z` are left unchanged exactly as the claims exercise them).
* `String.prototype.normalize("NFD")` is modelled by `nfdChar`, a
  character-to-character-list map carrying an explicit decomposition table
  for precomposed latin letters (the only characters the data contains
  that NFD affects) and acting as the identity elsewhere.
* A network `fetch` of a collection URL together with `res.ok` checking and
  `res.json()` parsing is modelled by a function
  `net : List Char → Option (List Book)`; `none` covers all three failure
  modes (network error, non-success status, malformed JSON), which the
  worker treats identically (skip the collection and continue).
* Per §3 of the design, `Book.content` is a one-element array holding a
  mapping from poem number to text; we model that sole element
  (`content[0]`) as an association list.
* A `Response` produced by the worker is modelled by `HandlerResult`:
  either the forwarded original request (`fetch(request)`) or a rendered
  response carrying its status, content type and the page generator's
  arguments (the generators `generateBookPage` / `generatePoemPage` are
  pure functions of exactly these arguments).
-/

/-! ## Character classes of the source's regexes -/

/-- The class `[a-z0-9]`: characters the slug regexes keep. -/
def isLowerAlnum (c : Char) : Bool :=
  ('a' ≤ c && c ≤ 'z') || ('0' ≤ c && c ≤ '9')

/-- ASCII `A`–`Z`. -/
def isAsciiUpper (c : Char) : Bool :=
  'A' ≤ c && c ≤ 'Z'

/-- JS regex `\s` (ECMAScript WhiteSpace ∪ LineTerminator). -/
def jsWs (c : Char) : Bool :=
  c = ' ' || c = '\t' || c = '\n' || c = '\x0b' || c = '\x0c' || c = '\r' ||
  c = ' ' || c = ' ' || (' ' ≤ c && c ≤ ' ') ||
  c = ' ' || c = ' ' || c = ' ' || c = ' ' ||
  c = '　' || c = '﻿'

/-- The quote class of both normalizers: `‘`, `’`, the straight
apostrophe (`\x27`) and the backtick (`\x60`); the source's regex lists
`‘` both escaped and literally, so the set has four members. -/
def isQuoteChar (c : Char) : Bool :=
  c = '‘' || c = '’' || c = '\x27' || c = '\x60'

/-- Line terminators, which JS regex `.` (no `s` flag) does not match. -/
def isLineTerm (c : Char) : Bool :=
  c = '\n' || c = '\r' || c = ' ' || c = ' '

/-- `String.prototype.toLowerCase`, basic-latin range (see header note). -/
def jsToLowerChar (c : Char) : Char :=
  Char.toLower c

/-- NFD decomposition table for the precomposed latin letters that occur in
the worker's data; all keys lie in the range `U+00C0`–`U+017F`. -/
def nfdTable : List (Char × List Char) :=
  [('à', ['a', '̀']), ('á', ['a', '́']), ('è', ['e', '̀']),
   ('é', ['e', '́']), ('í', ['i', '́']), ('ñ', ['n', '̃']),
   ('ó', ['o', '́']), ('ö', ['o', '̈']), ('ú', ['u', '́']),
   ('ü', ['u', '̈'])]

/-- `normalize("NFD")`, per character (identity off the table). -/
def nfdChar (c : Char) : List Char :=
  match nfdTable.lookup c with
  | some d => d
  | none => [c]

/-- `normalize("NFD")` on a whole string. -/
def nfdStr (l : List Char) : List Char :=
  (l.map nfdChar).flatten

/-! ## Generic string operations used by the regex-replace steps -/

/-- Scanner for `squashRuns`; the flag records whether the previous
character was in the class (i.e. we are inside a run already replaced). -/
def squashRunsAux (p : Char → Bool) (rep : Char) : Bool → List Char → List Char
  | _, [] => []
  | inRun, c :: cs =>
    if p c then
      if inRun then squashRunsAux p rep true cs
      else rep :: squashRunsAux p rep true cs
    else c :: squashRunsAux p rep false cs

/-- `replace(/X+/g, rep)` for the character class `p`: every maximal run of
`p`-characters becomes the single character `rep`. -/
def squashRuns (p : Char → Bool) (rep : Char) (l : List Char) : List Char :=
  squashRunsAux p rep false l

/-- Drop `p`-characters from the right end. -/
def rdropW (p : Char → Bool) (l : List Char) : List Char :=
  (l.reverse.dropWhile p).reverse

/-- Strip `p`-characters from both ends (JS `trim()` with `p := jsWs`). -/
def trimBy (p : Char → Bool) (l : List Char) : List Char :=
  rdropW p (l.dropWhile p)

/-- Remove at most one leading occurrence of `c` (regex `^c`). -/
def dropOneLeading (c : Char) : List Char → List Char
  | [] => []
  | x :: xs => if x = c then xs else x :: xs

/-- Remove at most one trailing occurrence of `c` (regex `c$`). -/
def dropOneTrailing (c : Char) (l : List Char) : List Char :=
  (dropOneLeading c l.reverse).reverse

/-- `replace(/^-|-$/g, "")`. -/
def trimEdgeHyphens (l : List Char) : List Char :=
  dropOneTrailing '-' (dropOneLeading '-' l)

/-- JS `hay.includes(needle)`: substring containment. -/
def containsSub (hay needle : List Char) : Bool :=
  (List.range (hay.length + 1)).any
    (fun i => (hay.drop i).take needle.length == needle)

/-- JS `String.prototype.split(sep)` (keeps empty segments; `"" ↦ [""]`). -/
def jsSplit (sep : Char) : List Char → List (List Char)
  | [] => [[]]
  | c :: cs =>
    if c = sep then [] :: jsSplit sep cs
    else
      match jsSplit sep cs with
      | [] => [[c]]
      | w :: ws => (c :: w) :: ws

/-- Scanner for `stripTags`, structurally recursive on a fuel argument
(each step consumes at least one character, so `fuel = length` suffices and
the `0` case with a non-empty list is never reached). -/
def stripTagsGo : Nat → List Char → List Char
  | _, [] => []
  | 0, l => l
  | fuel + 1, c :: cs =>
    if c = '<' && cs.contains '>' then
      stripTagsGo fuel ((cs.dropWhile (fun x => !(x = '>'))).drop 1)
    else c :: stripTagsGo fuel cs

/-- `replace(/<[^>]*>/g, "")`: strip HTML tags (used by the renderers); a
`<` with no later `>` does not start a match and stays. -/
def stripTags (l : List Char) : List Char :=
  stripTagsGo l.length l

/-! ## The two normalizers (`src/index.js` lines 14–42) -/

/-- The class kept by `[^a-z0-9\s]`-replacement: lowercase alnum or `\s`. -/
def isSlugKeep (c : Char) : Bool :=
  isLowerAlnum c || jsWs c

/-- `replace(/[^a-z0-9\s]/g, ' ')`, per character. -/
def keepOrSpace (c : Char) : Char :=
  if isSlugKeep c then c else ' '

/-- `createSlug` (lines 14–27): lowercase, NFD, strip quote variants,
non-alnum → space, trim, `\s+` → `-`, collapse `-+`, strip edge hyphens. -/
def createSlug (title : List Char) : List Char :=
  trimEdgeHyphens
    (squashRuns (fun c => c = '-') '-'
      (squashRuns jsWs '-'
        (trimBy jsWs
          (List.map keepOrSpace
            ((nfdStr (title.map jsToLowerChar)).filter
              (fun c => !(isQuoteChar c)))))))

/-- `cleanTitleForMatch` (lines 34–42): lowercase, NFD, strip quote
variants, *delete* non-alnum, `\s+` → `' '`, trim. -/
def cleanTitleForMatch (title : List Char) : List Char :=
  trimBy jsWs
    (squashRuns jsWs ' '
      (((nfdStr (title.map jsToLowerChar)).filter
          (fun c => !(isQuoteChar c))).filter isSlugKeep))

/-- The poem-segment → search-string conversion (lines 106–110):
`-` → space, non-alnum → space, `\s+` → `' '`, trim.  Its argument is the
already-lowercased poem segment. -/
def searchStringOf (seg : List Char) : List Char :=
  trimBy jsWs
    (squashRuns jsWs ' '
      (List.map keepOrSpace
        (seg.map (fun c => if c = '-' then ' ' else c))))

/-! ## Bot classifier (line 50) -/

/-- The alternatives of the bot regex, in source order. -/
def botSignatures : List (List Char) :=
  [ "Googlebot".data, "Google-InspectionTool".data, "Bingbot".data,
    "Slurp".data, "DuckDuckBot".data, "Baiduspider".data,
    "YandexBot".data, "facebookexternalhit".data, "Twitterbot".data,
    "LinkedInBot".data ]

/-- `/…|…/i.test(ua)`: some signature occurs case-insensitively in `ua`. -/
def isBot (ua : List Char) : Bool :=
  botSignatures.any
    (fun sig => containsSub (ua.map jsToLowerChar) (sig.map jsToLowerChar))

/-! ## Route classifier (line 52) -/

/-- `url.pathname.match(/^\/poetry\/(.+)$/)`: `some rest` iff the path is
`/poetry/` followed by a non-empty remainder containing no line terminator
(JS `.` does not match line terminators). -/
def poetryRest (path : List Char) : Option (List Char) :=
  if path.take 8 = "/poetry/".data then
    let rest := path.drop 8
    if !rest.isEmpty && rest.all (fun c => !(isLineTerm c)) then some rest
    else none
  else none

/-! ## Data model (§3) and request environment -/

/-- A poem record. -/
structure Poem where
  number : Nat
  title : List Char
deriving DecidableEq, Repr

/-- A book record; `content` models `content[0]`, the book's sole
poem-number → text mapping, as an association list. -/
structure Book where
  bookTitle : List Char
  dedicatee : List Char
  releaseDate : List Char
  image : List Char
  poemCount : Nat
  poems : List Poem
  content : List (Nat × List Char)
deriving DecidableEq, Repr

/-- The configuration surface: the three environment bindings (absent
bindings are `none`; the empty string is also treated as unset by the
worker's `if (!jsonUrl) continue`). -/
structure Env where
  FRITH_HILTON_JSON : Option (List Char)
  DR_CARL_HILL_JSON : Option (List Char)
  WEST_TO_WEST_JSON : Option (List Char)

/-- An incoming request: `url.pathname` and the `user-agent` header with
the worker's `|| ""` default already applied. -/
structure Request where
  pathname : List Char
  userAgent : List Char
deriving DecidableEq, Repr

/-- `Object.entries(COLLECTIONS)` in insertion order (lines 55–59). -/
def collectionsOf (env : Env) : List (List Char × Option (List Char)) :=
  [ ("frith-hilton".data, env.FRITH_HILTON_JSON),
    ("dr-carl-hill".data, env.DR_CARL_HILL_JSON),
    ("west-to-west".data, env.WEST_TO_WEST_JSON) ]

/-- The network: `none` models any fetch failure, non-ok status, or JSON
parse error (all handled identically by `continue`/`catch`). -/
def Net : Type := List Char → Option (List Book)

/-- The symmetric containment test of the book `find` (lines 76–80):
`titleSlug.includes(bookSlug) || bookSlug.includes(titleSlug)`. -/
def bookMatches (bookSlug : List Char) (b : Book) : Bool :=
  let titleSlug := createSlug b.bookTitle
  containsSub titleSlug bookSlug || containsSub bookSlug titleSlug

/-- The collection loop (lines 69–90): iterate collections in fixed order,
skip absent/empty URLs, skip failed fetches, and return the first matching
book of the first collection producing one. -/
def resolveBook (net : Net) (bookSlug : List Char) :
    List (List Char × Option (List Char)) → Option (List Char × Book)
  | [] => none
  | (key, jsonUrl) :: rest =>
    match jsonUrl with
    | none => resolveBook net bookSlug rest
    | some u =>
      if u.isEmpty then resolveBook net bookSlug rest
      else
        match net u with
        | none => resolveBook net bookSlug rest
        | some data =>
          match data.find? (fun b => bookMatches bookSlug b) with
          | some b => some (key, b)
          | none => resolveBook net bookSlug rest

/-- The URLs the collection loop actually fetches, in order (the loop
breaks after the collection whose data produced a match). -/
def fetchTrace (net : Net) (bookSlug : List Char) :
    List (List Char × Option (List Char)) → List (List Char)
  | [] => []
  | (_, jsonUrl) :: rest =>
    match jsonUrl with
    | none => fetchTrace net bookSlug rest
    | some u =>
      if u.isEmpty then fetchTrace net bookSlug rest
      else
        u :: match net u with
          | none => fetchTrace net bookSlug rest
          | some data =>
            if (data.find? (fun b => bookMatches bookSlug b)).isSome then []
            else fetchTrace net bookSlug rest

/-! ## Poem lookup and rendering inputs -/

/-- The fixed placeholder of line 125. -/
def placeholderText : List Char :=
  "<p>Full poem available in the book.</p>".data

/-- `book.content[0][n]` as an association-list lookup. -/
def lookupContent (b : Book) (n : Nat) : Option (List Char) :=
  (b.content.find? (fun e => e.1 == n)).map (fun e => e.2)

/-- `book.content[0][poem.number] || "<p>Full poem available in the book.</p>"`
(JS `||`: both a missing entry and an empty string yield the placeholder). -/
def poemTextOf (b : Book) (n : Nat) : List Char :=
  match lookupContent b n with
  | none => placeholderText
  | some t => if t.isEmpty then placeholderText else t

/-- The arguments handed to a page generator. -/
inductive PageBody where
  | bookIndex (book : Book) (bookUrl : List Char)
  | poemDetail (book : Book) (poem : Poem) (poemText : List Char)
      (bookUrl poemUrl collectionKey bookSlug : List Char)
deriving DecidableEq, Repr

/-- The worker's possible responses: the forwarded original request, or a
rendered response (status, `Content-Type`, page). -/
inductive HandlerResult where
  | passThrough (req : Request)
  | rendered (status : Nat) (contentType : List Char) (body : PageBody)
deriving DecidableEq, Repr

/-- `"text/html; charset=utf-8"` (lines 100, 129). -/
def ctHtml : List Char := "text/html; charset=utf-8".data

/-- Second element of the split path, if any (`pathParts[1]`). -/
def secondPart : List (List Char) → Option (List Char)
  | _ :: s :: _ => some s
  | _ => none

/-- The `fetch` handler (lines 46–131). -/
def handleFetch (env : Env) (net : Net) (req : Request) : HandlerResult :=
  match poetryRest req.pathname with
  | none => .passThrough req
  | some rest =>
    if !(isBot req.userAgent) then .passThrough req
    else
      let pathParts := jsSplit '/' rest
      let bookSlug := (pathParts.headD []).map jsToLowerChar
      let poemSlugRaw : Option (List Char) :=
        match secondPart pathParts with
        | some s => if s.isEmpty then none else some (s.map jsToLowerChar)
        | none => none
      match resolveBook net bookSlug (collectionsOf env) with
      | none => .passThrough req
      | some (collectionKey, book) =>
        let bookCleanSlug := createSlug book.bookTitle
        let bookUrl := "https://www.frithhilton.com.ng/poetry/".data ++ bookCleanSlug
        match poemSlugRaw with
        | none => .rendered 200 ctHtml (.bookIndex book bookUrl)
        | some poemSeg =>
          let searchString := searchStringOf poemSeg
          match book.poems.find?
              (fun p => cleanTitleForMatch p.title == searchString) with
          | none => .passThrough req
          | some poem =>
            let poemCleanSlug := createSlug poem.title
            let poemUrl := bookUrl ++ '/' :: poemCleanSlug
            .rendered 200 ctHtml
              (.poemDetail book poem (poemTextOf book poem.number)
                bookUrl poemUrl collectionKey bookSlug)

/-! ## Canonical word decomposition (proof infrastructure)

`wordsOf p l` is the list of maximal runs of non-`p` characters of `l`,
and `joinSep sep` rejoins such a list with a single separator.  Both
normalizers are proved below to compute `joinSep` of `wordsOf`. -/

/-- Maximal non-`p` runs of a string, in order. -/
def wordsOf (p : Char → Bool) : List Char → List (List Char)
  | [] => []
  | c :: cs =>
    if p c then wordsOf p cs
    else (c :: cs.takeWhile (fun x => !(p x))) ::
      wordsOf p (cs.dropWhile (fun x => !(p x)))
  termination_by l => l.length
  decreasing_by
    · exact Nat.lt_succ_of_le (Nat.le_refl _)
    · exact Nat.lt_succ_of_le (List.dropWhile_sublist _).length_le

/-- Join words with a single separator character. -/
def joinSep (sep : Char) : List (List Char) → List Char
  | [] => []
  | [w] => w
  | w :: w2 :: ws => w ++ sep :: joinSep sep (w2 :: ws)

/-- The common first stages of `createSlug` (lowercase, NFD, quote-strip,
non-alnum → space), named for the canonical-form lemmas below. -/
def slugBase (title : List Char) : List Char :=
  List.map keepOrSpace
    ((nfdStr (title.map jsToLowerChar)).filter (fun c => !(isQuoteChar c)))

/-- Titles over this alphabet (ASCII letters, digits, whitespace, and the
stripped quote variants) round-trip from their canonical slug back to
their match key; punctuation between alphanumerics breaks the round-trip
(see the counterexample below). -/
def allowedTitleChar (c : Char) : Bool :=
  isAsciiUpper c || isLowerAlnum c || jsWs c || isQuoteChar c

/-! ## Concrete fixtures for the claims -/

/-- Fixture poem #1 (note the curly apostrophe, as in the worker's data). -/
def poemKarma : Poem := { number := 1, title := "Karma’s Sequel".data }

/-- Fixture poem #2. -/
def poemSecond : Poem := { number := 2, title := "Second Poem".data }

/-- Fixture poem whose book carries no content entry for it. -/
def poemLone : Poem := { number := 2, title := "Lone Poem".data }

/-- Fixture poem with a hyphenated title (breaks the slug round-trip). -/
def poemSelf : Poem := { number := 3, title := "self-portrait".data }

/-- Fixture book holding `poemKarma`. -/
def bookKarma : Book :=
  { bookTitle := "Karma Book".data
    dedicatee := "Maya".data
    releaseDate := "2021-05-01".data
    image := "https://img.example/karma/cover.jpg".data
    poemCount := 2
    poems := [poemKarma, poemSecond]
    content := [(1, "<p>Seed text</p>".data)] }

/-- Fixture book with the title of the spec's containment example. -/
def bookFrith : Book :=
  { bookTitle := "Frith Hilton: Selected Works".data
    dedicatee := "Rhoda".data
    releaseDate := "2020-01-01".data
    image := "https://img.example/fh/cover.jpg".data
    poemCount := 1
    poems := [poemKarma]
    content := [(1, "<p>One</p>".data)] }

/-- Fixture book with an empty content mapping. -/
def bookBare : Book :=
  { bookTitle := "Bare Book".data
    dedicatee := "No One".data
    releaseDate := "2019-03-03".data
    image := "https://img.example/bare/cover.jpg".data
    poemCount := 1
    poems := [poemLone]
    content := [] }

/-- Fixture book holding the hyphenated-title poem. -/
def bookSelf : Book :=
  { bookTitle := "Self Book".data
    dedicatee := "Artist".data
    releaseDate := "2018-01-01".data
    image := "https://img.example/self/cover.jpg".data
    poemCount := 1
    poems := [poemSelf]
    content := [(3, "<p>Mirror</p>".data)] }

/-- Environment with only the first collection configured. -/
def envSolo : Env :=
  { FRITH_HILTON_JSON := some "u1".data
    DR_CARL_HILL_JSON := none
    WEST_TO_WEST_JSON := none }

/-- Environment with the first two collections configured. -/
def envDuo : Env :=
  { FRITH_HILTON_JSON := some "u1".data
    DR_CARL_HILL_JSON := some "u2".data
    WEST_TO_WEST_JSON := none }

/-- Network serving `bookKarma` at `u1`. -/
def netKarma : Net := fun u => if u = "u1".data then some [bookKarma] else none

/-- Network serving `bookFrith` at `u1`. -/
def netFrith : Net := fun u => if u = "u1".data then some [bookFrith] else none

/-- Network serving `bookBare` at `u1`. -/
def netBare : Net := fun u => if u = "u1".data then some [bookBare] else none

/-- Network serving two books at `u1` (for the empty-segment claim). -/
def netTwoBooks : Net :=
  fun u => if u = "u1".data then some [bookKarma, bookFrith] else none

/-- Network on which `u1` fails and `u2` serves `bookFrith`. -/
def netFailFirst : Net :=
  fun u => if u = "u2".data then some [bookFrith] else none

/-- Bot request for `poemKarma`'s canonical URL. -/
def reqKarmaGood : Request :=
  { pathname := "/poetry/karma-book/karmas-sequel".data
    userAgent := "Googlebot/2.1 (+http://www.google.com/bot.html)".data }

/-- Bot request with the `karma-sequel` segment (missing the `s`). -/
def reqKarmaBad : Request :=
  { pathname := "/poetry/karma-book/karma-sequel".data
    userAgent := "Googlebot/2.1 (+http://www.google.com/bot.html)".data }

/-- Bot request for the poem whose content entry is absent. -/
def reqLone : Request :=
  { pathname := "/poetry/bare-book/lone-poem".data
    userAgent := "Twitterbot/1.0".data }

/-! ## Helper lemmas: `squashRuns`, `rdropW`, `trimBy` -/

theorem squashRuns_nil (p : Char → Bool) (rep : Char) :
    squashRuns p rep [] = [] := rfl

theorem squashRunsAux_true {p : Char → Bool} {rep : Char} :
    ∀ cs : List Char,
      squashRunsAux p rep true cs = squashRuns p rep (cs.dropWhile p) := by
  intro cs
  induction cs with
  | nil => rfl
  | cons c cs ih =>
    by_cases hc : p c = true
    · rw [List.dropWhile_cons_of_pos hc]
      unfold squashRunsAux
      rw [if_pos hc, if_pos rfl, ih]
    · rw [List.dropWhile_cons_of_neg (by simp [hc])]
      unfold squashRuns squashRunsAux
      rw [if_neg (by simp_all), if_neg (by simp_all)]

theorem squashRuns_cons_pos {p : Char → Bool} {rep c : Char} {cs : List Char}
    (h : p c = true) :
    squashRuns p rep (c :: cs) = rep :: squashRuns p rep (cs.dropWhile p) := by
  rw [← squashRunsAux_true]
  show squashRunsAux p rep false (c :: cs) = rep :: squashRunsAux p rep true cs
  simp only [squashRunsAux, h, if_true, Bool.false_eq_true, if_false]

theorem squashRuns_cons_neg {p : Char → Bool} {rep c : Char} {cs : List Char}
    (h : p c = false) :
    squashRuns p rep (c :: cs) = c :: squashRuns p rep cs := by
  show squashRunsAux p rep false (c :: cs) = c :: squashRunsAux p rep false cs
  simp only [squashRunsAux, h, Bool.false_eq_true, if_false]

theorem squashRuns_word_append {p : Char → Bool} {rep : Char} {w t : List Char}
    (h : ∀ c ∈ w, p c = false) :
    squashRuns p rep (w ++ t) = w ++ squashRuns p rep t := by
  induction w with
  | nil => rfl
  | cons c w ih =>
    rw [List.cons_append, squashRuns_cons_neg (h c (by simp)), List.cons_append,
      ih (fun d hd => h d (by simp [hd]))]

theorem squashRuns_id_of_all_neg {p : Char → Bool} {rep : Char} {w : List Char}
    (h : ∀ c ∈ w, p c = false) : squashRuns p rep w = w := by
  have h2 := @squashRuns_word_append p rep w [] h
  rw [squashRuns_nil, List.append_nil] at h2
  exact h2

theorem dropWhile_eq_nil_of_all {p : Char → Bool} {l : List Char}
    (h : ∀ c ∈ l, p c = true) : l.dropWhile p = [] := by
  induction l with
  | nil => rfl
  | cons c cs ih =>
    rw [List.dropWhile_cons_of_pos (h c (by simp))]
    exact ih fun d hd => h d (by simp [hd])

theorem dropWhile_id_of_all_neg {p : Char → Bool} {l : List Char}
    (h : ∀ c ∈ l, p c = false) : l.dropWhile p = l := by
  cases l with
  | nil => rfl
  | cons c cs => rw [List.dropWhile_cons_of_neg (by simp [h c (by simp)])]

theorem dropWhile_ne_nil_of_mem {p : Char → Bool} {l : List Char} {e : Char}
    (he : e ∈ l) (hpe : p e = false) : l.dropWhile p ≠ [] := by
  induction l with
  | nil => cases he
  | cons c cs ih =>
    rw [List.dropWhile_cons]
    by_cases hc : p c = true
    · rw [if_pos hc]
      rcases List.mem_cons.mp he with rfl | hmem
      · rw [hc] at hpe; cases hpe
      · exact ih hmem
    · rw [if_neg hc]; simp

theorem rdropW_id_of_all_neg {p : Char → Bool} {w : List Char}
    (h : ∀ c ∈ w, p c = false) : rdropW p w = w := by
  unfold rdropW
  rw [dropWhile_id_of_all_neg (fun c hc => h c (List.mem_reverse.mp hc))]
  exact List.reverse_reverse w

theorem rdropW_eq_nil_of_all {p : Char → Bool} {l : List Char}
    (h : ∀ c ∈ l, p c = true) : rdropW p l = [] := by
  unfold rdropW
  rw [dropWhile_eq_nil_of_all (fun c hc => h c (List.mem_reverse.mp hc))]
  rfl

theorem rdropW_append_all {p : Char → Bool} {xs rest : List Char}
    (h : ∀ c ∈ rest, p c = true) : rdropW p (xs ++ rest) = rdropW p xs := by
  unfold rdropW
  rw [List.reverse_append,
    List.dropWhile_append_of_pos (fun c hc => h c (List.mem_reverse.mp hc))]

theorem rdropW_append_of_mem {p : Char → Bool} {xs rest : List Char} {e : Char}
    (he : e ∈ rest) (hpe : p e = false) :
    rdropW p (xs ++ rest) = xs ++ rdropW p rest := by
  unfold rdropW
  rw [List.reverse_append, List.dropWhile_append,
    if_neg (by
      simp only [List.isEmpty_iff]
      exact dropWhile_ne_nil_of_mem (List.mem_reverse.mpr he) hpe),
    List.reverse_append, List.reverse_reverse]

theorem rdropW_cons_of_mem {p : Char → Bool} {c e : Char} {cs : List Char}
    (he : e ∈ cs) (hpe : p e = false) :
    rdropW p (c :: cs) = c :: rdropW p cs :=
  @rdropW_append_of_mem p [c] cs e he hpe

theorem trimBy_cons_pos {p : Char → Bool} {c : Char} {cs : List Char}
    (h : p c = true) : trimBy p (c :: cs) = trimBy p cs := by
  unfold trimBy
  rw [List.dropWhile_cons_of_pos h]

theorem dropWhile_rdropW_comm {p : Char → Bool} :
    ∀ l : List Char, (rdropW p l).dropWhile p = rdropW p (l.dropWhile p) := by
  intro l
  induction l with
  | nil => rfl
  | cons c cs ih =>
    by_cases hall : ∀ d ∈ cs, p d = true
    · by_cases hc : p c = true
      · have hall2 : ∀ d ∈ c :: cs, p d = true := by
          intro d hd
          rcases List.mem_cons.mp hd with rfl | h
          · exact hc
          · exact hall d h
        rw [rdropW_eq_nil_of_all hall2]
        rw [List.dropWhile_cons_of_pos hc, dropWhile_eq_nil_of_all hall]
        rfl
      · have h1 : rdropW p (c :: cs) = [c] := by
          have : rdropW p ([c] ++ cs) = rdropW p [c] := rdropW_append_all hall
          simpa [rdropW, hc] using this
        rw [h1, List.dropWhile_cons_of_neg (by simp [hc]),
          List.dropWhile_cons_of_neg (by simp [hc]), ← h1]
    · push_neg at hall
      obtain ⟨e, he, hpe⟩ := hall
      have hpe : p e = false := by simpa using hpe
      rw [rdropW_cons_of_mem he hpe]
      by_cases hc : p c = true
      · rw [List.dropWhile_cons_of_pos hc, List.dropWhile_cons_of_pos hc, ih]
      · rw [List.dropWhile_cons_of_neg hc, List.dropWhile_cons_of_neg hc,
          rdropW_cons_of_mem he hpe]

/-! ## Helper lemmas: `wordsOf` and `joinSep` -/

theorem wordsOf_nil (p : Char → Bool) : wordsOf p [] = [] := by
  rw [wordsOf]

theorem wordsOf_cons_pos {p : Char → Bool} {c : Char} {cs : List Char}
    (h : p c = true) : wordsOf p (c :: cs) = wordsOf p cs := by
  rw [wordsOf, if_pos h]

theorem wordsOf_cons_neg {p : Char → Bool} {c : Char} {cs : List Char}
    (h : p c = false) :
    wordsOf p (c :: cs) =
      (c :: cs.takeWhile (fun x => !(p x))) ::
        wordsOf p (cs.dropWhile (fun x => !(p x))) := by
  rw [wordsOf, if_neg (by simp [h])]

theorem wordsOf_dropWhile {p : Char → Bool} :
    ∀ l : List Char, wordsOf p (l.dropWhile p) = wordsOf p l := by
  intro l
  induction l with
  | nil => rfl
  | cons c cs ih =>
    by_cases hc : p c = true
    · rw [List.dropWhile_cons_of_pos hc, wordsOf_cons_pos hc, ih]
    · rw [List.dropWhile_cons_of_neg hc]

theorem wordsOf_eq_nil_iff {p : Char → Bool} :
    ∀ {l : List Char}, wordsOf p l = [] ↔ ∀ c ∈ l, p c = true := by
  intro l
  induction l with
  | nil => simp [wordsOf_nil]
  | cons c cs ih =>
    by_cases hc : p c = true
    · rw [wordsOf_cons_pos hc]
      simp only [List.mem_cons]
      constructor
      · intro h d hd
        rcases hd with rfl | hd
        · exact hc
        · exact ih.mp h d hd
      · intro h
        exact ih.mpr fun d hd => h d (Or.inr hd)
    · rw [wordsOf_cons_neg (by simpa using hc)]
      simp only [List.mem_cons]
      constructor
      · intro h; cases h
      · intro h
        exact absurd (h c (Or.inl rfl)) hc

/-- Every word is non-empty, consists of non-`p` characters, and its
characters come from the original string. -/
theorem wordsOf_spec {p : Char → Bool} :
    ∀ (l : List Char), ∀ w ∈ wordsOf p l,
      w ≠ [] ∧ ∀ c ∈ w, p c = false ∧ c ∈ l := by
  suffices h : ∀ (n : Nat) (l : List Char), l.length ≤ n →
      ∀ w ∈ wordsOf p l, w ≠ [] ∧ ∀ c ∈ w, p c = false ∧ c ∈ l by
    exact fun l => h l.length l (Nat.le_refl _)
  intro n
  induction n with
  | zero =>
    intro l hl w hw
    have : l = [] := List.length_eq_zero.mp (Nat.le_zero.mp hl)
    subst this
    rw [wordsOf_nil] at hw; cases hw
  | succ n ih =>
    intro l hl
    match l with
    | [] => intro w hw; rw [wordsOf_nil] at hw; cases hw
    | c :: cs =>
      intro w hw
      have hcs : cs.length ≤ n := by
        simp only [List.length_cons] at hl; omega
      by_cases hc : p c = true
      · rw [wordsOf_cons_pos hc] at hw
        have := ih cs hcs w hw
        exact ⟨this.1, fun d hd => ⟨(this.2 d hd).1, by simp [(this.2 d hd).2]⟩⟩
      · have hc' : p c = false := by simpa using hc
        rw [wordsOf_cons_neg hc'] at hw
        rcases List.mem_cons.mp hw with rfl | hw
        · refine ⟨by simp, ?_⟩
          intro d hd
          rcases List.mem_cons.mp hd with rfl | hd
          · exact ⟨hc', by simp⟩
          · have h1 : (!(p d)) = true :=
              List.mem_takeWhile_imp (p := fun x => !(p x)) hd
            have h2 : d ∈ cs := (List.takeWhile_sublist _).subset hd
            exact ⟨by simpa using h1, by simp [h2]⟩
        · have hlen : (cs.dropWhile (fun x => !(p x))).length ≤ n :=
            Nat.le_trans (List.dropWhile_sublist _).length_le hcs
          have := ih _ hlen w hw
          refine ⟨this.1, fun d hd => ⟨(this.2 d hd).1, ?_⟩⟩
          have h2 : d ∈ cs := (List.dropWhile_sublist _).subset (this.2 d hd).2
          simp [h2]

theorem joinSep_nil (sep : Char) : joinSep sep [] = [] := rfl

theorem joinSep_single (sep : Char) (w : List Char) : joinSep sep [w] = w := rfl

theorem joinSep_cons_of_ne_nil {sep : Char} {w : List Char}
    {W : List (List Char)} (h : W ≠ []) :
    joinSep sep (w :: W) = w ++ sep :: joinSep sep W := by
  match W with
  | [] => cases h rfl
  | x :: ws => rfl

/-! ## The canonicalization theorems: trim/squash compute `joinSep ∘ wordsOf` -/

/-- `replace(/X+/g, rep)` after `trim` is exactly "join the words on a
single `rep`". -/
theorem squash_trim_eq_joinSep (p : Char → Bool) (rep : Char) :
    ∀ l : List Char,
      squashRuns p rep (trimBy p l) = joinSep rep (wordsOf p l) := by
  suffices h : ∀ (n : Nat) (l : List Char), l.length ≤ n →
      squashRuns p rep (trimBy p l) = joinSep rep (wordsOf p l) by
    exact fun l => h l.length l (Nat.le_refl _)
  intro n
  induction n with
  | zero =>
    intro l hl
    have h0 : l = [] := List.length_eq_zero.mp (Nat.le_zero.mp hl)
    subst h0
    have h1 : trimBy p [] = [] := rfl
    rw [h1, squashRuns_nil, wordsOf_nil, joinSep_nil]
  | succ n ih =>
    intro l hl
    match l with
    | [] =>
      have h1 : trimBy p [] = [] := rfl
      rw [h1, squashRuns_nil, wordsOf_nil, joinSep_nil]
    | c :: cs =>
      have hcs : cs.length ≤ n := by
        simp only [List.length_cons] at hl; omega
      by_cases hc : p c = true
      · rw [trimBy_cons_pos hc, wordsOf_cons_pos hc]
        exact ih cs hcs
      · have hc' : p c = false := by simpa using hc
        have hw : ∀ d ∈ c :: cs.takeWhile (fun x => !(p x)), p d = false := by
          intro d hd
          rcases List.mem_cons.mp hd with rfl | hd
          · exact hc'
          · simpa using List.mem_takeWhile_imp (p := fun x => !(p x)) hd
        have hdecomp : c :: cs =
            (c :: cs.takeWhile (fun x => !(p x))) ++
              cs.dropWhile (fun x => !(p x)) := by
          rw [List.cons_append, List.takeWhile_append_dropWhile]
        have hdw : ((c :: cs.takeWhile (fun x => !(p x))) ++
              cs.dropWhile (fun x => !(p x))).dropWhile p =
            (c :: cs.takeWhile (fun x => !(p x))) ++
              cs.dropWhile (fun x => !(p x)) := by
          rw [List.cons_append]
          exact List.dropWhile_cons_of_neg (by simp [hc'])
        by_cases hall : ∀ d ∈ cs.dropWhile (fun x => !(p x)), p d = true
        · -- everything after the first word is separators (or nothing)
          have htrim : trimBy p (c :: cs) = c :: cs.takeWhile (fun x => !(p x)) := by
            rw [hdecomp]
            unfold trimBy
            rw [hdw, rdropW_append_all hall, rdropW_id_of_all_neg hw]
          rw [htrim, wordsOf_cons_neg hc', wordsOf_eq_nil_iff.mpr hall,
            joinSep_single, squashRuns_id_of_all_neg hw]
        · push_neg at hall
          obtain ⟨e, he, hpe⟩ := hall
          have hpe : p e = false := by simpa using hpe
          cases hrm : cs.dropWhile (fun x => !(p x)) with
          | nil => rw [hrm] at he; cases he
          | cons d rest2 =>
            rw [hrm] at he hdecomp hdw
            have hd : p d = true := by
              have h2 := List.head_dropWhile_not (fun x => !(p x)) cs
              rw [hrm] at h2
              simpa using h2
            have he2 : e ∈ rest2 := by
              rcases List.mem_cons.mp he with rfl | h
              · rw [hd] at hpe; cases hpe
              · exact h
            have htrim : trimBy p (c :: cs) =
                (c :: cs.takeWhile (fun x => !(p x))) ++ d :: rdropW p rest2 := by
              rw [hdecomp]
              unfold trimBy
              rw [hdw, rdropW_append_of_mem he hpe, rdropW_cons_of_mem he2 hpe]
            have hlen : rest2.length ≤ n := by
              have h1 : (cs.dropWhile (fun x => !(p x))).length ≤ cs.length :=
                (List.dropWhile_sublist _).length_le
              rw [hrm] at h1
              simp only [List.length_cons] at h1
              omega
            calc squashRuns p rep (trimBy p (c :: cs))
                = (c :: cs.takeWhile (fun x => !(p x))) ++
                    rep :: squashRuns p rep ((rdropW p rest2).dropWhile p) := by
                  rw [htrim, squashRuns_word_append hw, squashRuns_cons_pos hd]
              _ = (c :: cs.takeWhile (fun x => !(p x))) ++
                    rep :: squashRuns p rep (trimBy p rest2) := by
                  rw [dropWhile_rdropW_comm]; rfl
              _ = (c :: cs.takeWhile (fun x => !(p x))) ++
                    rep :: joinSep rep (wordsOf p rest2) := by
                  rw [ih rest2 hlen]
              _ = joinSep rep (wordsOf p (c :: cs)) := by
                  rw [wordsOf_cons_neg hc', hrm, wordsOf_cons_pos hd,
                    joinSep_cons_of_ne_nil (by
                      intro hnil
                      exact absurd (wordsOf_eq_nil_iff.mp hnil e he2)
                        (by simp [hpe]))]

/-- `trim` after `replace(/X+/g, rep)` (for a `rep` in the class, e.g.
collapsing whitespace runs to a single space) is also "join the words on a
single `rep`". -/
theorem trim_squash_eq_joinSep (p : Char → Bool) (rep : Char)
    (hrep : p rep = true) :
    ∀ l : List Char,
      trimBy p (squashRuns p rep l) = joinSep rep (wordsOf p l) := by
  suffices h : ∀ (n : Nat) (l : List Char), l.length ≤ n →
      trimBy p (squashRuns p rep l) = joinSep rep (wordsOf p l) by
    exact fun l => h l.length l (Nat.le_refl _)
  intro n
  induction n with
  | zero =>
    intro l hl
    have h0 : l = [] := List.length_eq_zero.mp (Nat.le_zero.mp hl)
    subst h0
    rw [squashRuns_nil, wordsOf_nil, joinSep_nil]
    rfl
  | succ n ih =>
    intro l hl
    match l with
    | [] =>
      rw [squashRuns_nil, wordsOf_nil, joinSep_nil]
      rfl
    | c :: cs =>
      have hcs : cs.length ≤ n := by
        simp only [List.length_cons] at hl; omega
      by_cases hc : p c = true
      · rw [squashRuns_cons_pos hc, wordsOf_cons_pos hc]
        have h1 : trimBy p (rep :: squashRuns p rep (cs.dropWhile p)) =
            trimBy p (squashRuns p rep (cs.dropWhile p)) := by
          unfold trimBy
          rw [List.dropWhile_cons_of_pos hrep]
        rw [h1, ih (cs.dropWhile p)
            (Nat.le_trans (List.dropWhile_sublist p).length_le hcs),
          wordsOf_dropWhile]
      · have hc' : p c = false := by simpa using hc
        have hw : ∀ d ∈ c :: cs.takeWhile (fun x => !(p x)), p d = false := by
          intro d hd
          rcases List.mem_cons.mp hd with rfl | hd
          · exact hc'
          · simpa using List.mem_takeWhile_imp (p := fun x => !(p x)) hd
        have hdecomp : c :: cs =
            (c :: cs.takeWhile (fun x => !(p x))) ++
              cs.dropWhile (fun x => !(p x)) := by
          rw [List.cons_append, List.takeWhile_append_dropWhile]
        by_cases hall : ∀ d ∈ cs.dropWhile (fun x => !(p x)), p d = true
        · rw [wordsOf_cons_neg hc', wordsOf_eq_nil_iff.mpr hall, joinSep_single]
          cases hrm : cs.dropWhile (fun x => !(p x)) with
          | nil =>
            rw [hrm] at hdecomp
            rw [List.append_nil] at hdecomp
            conv_lhs => rw [hdecomp]
            rw [squashRuns_id_of_all_neg hw]
            unfold trimBy
            rw [dropWhile_id_of_all_neg hw, rdropW_id_of_all_neg hw]
          | cons d rest2 =>
            rw [hrm] at hdecomp hall
            have hd : p d = true := hall d (by simp)
            have hsq : squashRuns p rep (d :: rest2) = [rep] := by
              rw [squashRuns_cons_pos hd,
                dropWhile_eq_nil_of_all (fun x hx => hall x (by simp [hx])),
                squashRuns_nil]
            conv_lhs => rw [hdecomp]
            rw [squashRuns_word_append hw, hsq]
            unfold trimBy
            rw [List.cons_append, List.dropWhile_cons_of_neg (by simp [hc']),
              ← List.cons_append,
              @rdropW_append_all p _ [rep] (by simp [hrep]),
              rdropW_id_of_all_neg hw]
        · push_neg at hall
          obtain ⟨e, he, hpe⟩ := hall
          have hpe : p e = false := by simpa using hpe
          cases hrm : cs.dropWhile (fun x => !(p x)) with
          | nil => rw [hrm] at he; cases he
          | cons d rest2 =>
            rw [hrm] at he hdecomp
            have hd : p d = true := by
              have h2 := List.head_dropWhile_not (fun x => !(p x)) cs
              rw [hrm] at h2
              simpa using h2
            have he2 : e ∈ rest2 := by
              rcases List.mem_cons.mp he with rfl | h
              · rw [hd] at hpe; cases hpe
              · exact h
            cases hD : rest2.dropWhile p with
            | nil => exact absurd hD (dropWhile_ne_nil_of_mem he2 hpe)
            | cons e1 D2 =>
              have he1 : p e1 = false := by
                have h2 := List.head_dropWhile_not p rest2
                rw [hD] at h2
                simpa using h2
              have hsqD : squashRuns p rep (rest2.dropWhile p) =
                  e1 :: squashRuns p rep D2 := by
                rw [hD, squashRuns_cons_neg he1]
              have he1mem : e1 ∈ squashRuns p rep (rest2.dropWhile p) := by
                rw [hsqD]; simp
              have hlen : (rest2.dropWhile p).length ≤ n := by
                have h1 : (cs.dropWhile (fun x => !(p x))).length ≤ cs.length :=
                  (List.dropWhile_sublist _).length_le
                rw [hrm] at h1
                have h2 : (rest2.dropWhile p).length ≤ rest2.length :=
                  (List.dropWhile_sublist p).length_le
                simp only [List.length_cons] at h1
                omega
              -- assemble both sides
              conv_lhs => rw [hdecomp]
              rw [squashRuns_word_append hw, squashRuns_cons_pos hd]
              unfold trimBy
              rw [List.cons_append, List.dropWhile_cons_of_neg (by simp [hc']),
                ← List.cons_append,
                rdropW_append_of_mem (e := e1) (by simp [he1mem]) he1,
                rdropW_cons_of_mem he1mem he1]
              have hrd : (squashRuns p rep (rest2.dropWhile p)).dropWhile p =
                  squashRuns p rep (rest2.dropWhile p) := by
                rw [hsqD]
                exact List.dropWhile_cons_of_neg (by simp [he1])
              have hih := ih (rest2.dropWhile p) hlen
              unfold trimBy at hih
              rw [hrd] at hih
              rw [hih, wordsOf_dropWhile, wordsOf_cons_neg hc', hrm,
                wordsOf_cons_pos hd,
                joinSep_cons_of_ne_nil (by
                  intro hnil
                  exact absurd (wordsOf_eq_nil_iff.mp hnil e he2) (by simp [hpe]))]

/-! ## Character-class lemmas (codepoint arithmetic) -/

theorem char_le_iff_toNat {a b : Char} : a ≤ b ↔ a.toNat ≤ b.toNat := by
  rw [Char.le_def]
  exact ⟨fun h => h, fun h => h⟩

theorem char_eq_iff_toNat {a b : Char} : a = b ↔ a.toNat = b.toNat := by
  constructor
  · intro h; rw [h]
  · intro h
    apply Char.ext
    apply UInt32.eq_of_toBitVec_eq
    exact BitVec.eq_of_toNat_eq h

theorem isLowerAlnum_iff {c : Char} :
    isLowerAlnum c = true ↔
      (97 ≤ c.toNat ∧ c.toNat ≤ 122) ∨ (48 ≤ c.toNat ∧ c.toNat ≤ 57) := by
  simp only [isLowerAlnum, Bool.or_eq_true, Bool.and_eq_true, decide_eq_true_eq,
    char_le_iff_toNat, Char.reduceToNat]

theorem isAsciiUpper_iff {c : Char} :
    isAsciiUpper c = true ↔ (65 ≤ c.toNat ∧ c.toNat ≤ 90) := by
  simp only [isAsciiUpper, Bool.and_eq_true, decide_eq_true_eq,
    char_le_iff_toNat, Char.reduceToNat]

theorem jsWs_iff {c : Char} :
    jsWs c = true ↔
      (c.toNat = 32 ∨ c.toNat = 9 ∨ c.toNat = 10 ∨ c.toNat = 11 ∨
       c.toNat = 12 ∨ c.toNat = 13 ∨ c.toNat = 160 ∨ c.toNat = 5760 ∨
       (8192 ≤ c.toNat ∧ c.toNat ≤ 8202) ∨ c.toNat = 8232 ∨
       c.toNat = 8233 ∨ c.toNat = 8239 ∨ c.toNat = 8287 ∨
       c.toNat = 12288 ∨ c.toNat = 65279) := by
  simp only [jsWs, Bool.or_eq_true, Bool.and_eq_true, decide_eq_true_eq,
    char_eq_iff_toNat, char_le_iff_toNat, Char.reduceToNat]
  omega

theorem isQuoteChar_iff {c : Char} :
    isQuoteChar c = true ↔
      (c.toNat = 8216 ∨ c.toNat = 8217 ∨ c.toNat = 39 ∨ c.toNat = 96) := by
  simp only [isQuoteChar, Bool.or_eq_true, decide_eq_true_eq,
    char_eq_iff_toNat, Char.reduceToNat]
  omega

theorem hyphen_toNat : ('-').toNat = 45 := rfl

theorem char_toNat_ofNat {n : Nat} (h : n < 55296) : (Char.ofNat n).toNat = n := by
  rw [Char.ofNat, dif_pos (Or.inl h)]
  rfl

theorem jsToLowerChar_eq_self {c : Char}
    (h : c.toNat < 65 ∨ 90 < c.toNat) : jsToLowerChar c = c := by
  rw [jsToLowerChar, Char.toLower, if_neg (by omega)]

theorem jsToLowerChar_toNat_of_upper {c : Char}
    (h1 : 65 ≤ c.toNat) (h2 : c.toNat ≤ 90) :
    (jsToLowerChar c).toNat = c.toNat + 32 := by
  rw [jsToLowerChar, Char.toLower, if_pos (by omega)]
  exact char_toNat_ofNat (by omega)

theorem nfdChar_eq_self {c : Char}
    (h : c.toNat < 192 ∨ 383 < c.toNat) : nfdChar c = [c] := by
  have hlk : nfdTable.lookup c = none := by
    rw [List.lookup_eq_none_iff]
    intro q hq
    simp only [nfdTable, List.mem_cons, List.not_mem_nil, or_false] at hq
    rcases hq with h1 | h1 | h1 | h1 | h1 | h1 | h1 | h1 | h1 | h1 <;>
      (subst h1
       simp only [bne_iff_ne, ne_eq, char_eq_iff_toNat, Char.reduceToNat]
       omega)
  rw [nfdChar, hlk]

/-- Characters of a canonical slug: lowercase alnum (not whitespace, not a
hyphen, not a quote) are untouched by every earlier pipeline stage. -/
theorem isLowerAlnum_basic {c : Char} (h : isLowerAlnum c = true) :
    jsWs c = false ∧ isQuoteChar c = false ∧ c ≠ '-' ∧
      nfdChar c = [c] ∧ jsToLowerChar c = c ∧ isSlugKeep c = true := by
  rw [isLowerAlnum_iff] at h
  refine ⟨?_, ?_, ?_, ?_, ?_, ?_⟩
  · rw [← Bool.not_eq_true, jsWs_iff]; omega
  · rw [← Bool.not_eq_true, isQuoteChar_iff]; omega
  · rw [ne_eq, char_eq_iff_toNat, hyphen_toNat]; omega
  · exact nfdChar_eq_self (by omega)
  · exact jsToLowerChar_eq_self (by omega)
  · rw [isSlugKeep, Bool.or_eq_true, isLowerAlnum_iff]; omega

theorem hyphen_basic :
    jsWs '-' = false ∧ isQuoteChar '-' = false ∧ isLowerAlnum '-' = false ∧
      nfdChar '-' = ['-'] ∧ jsToLowerChar '-' = '-' ∧ isSlugKeep '-' = false := by
  refine ⟨by decide, by decide, by decide, ?_, ?_, by decide⟩
  · exact nfdChar_eq_self (by rw [hyphen_toNat]; omega)
  · exact jsToLowerChar_eq_self (by rw [hyphen_toNat]; omega)

/-! ## `joinSep` algebra -/

theorem map_id_of_mem {f : Char → Char} {l : List Char}
    (h : ∀ c ∈ l, f c = c) : l.map f = l := by
  induction l with
  | nil => rfl
  | cons c cs ih =>
    rw [List.map_cons, h c (by simp), ih (fun d hd => h d (by simp [hd]))]

theorem joinSep_map (f : Char → Char) (sep : Char) :
    ∀ W : List (List Char),
      (joinSep sep W).map f = joinSep (f sep) (W.map (List.map f))
  | [] => rfl
  | [w] => rfl
  | w :: w2 :: ws => by
    rw [joinSep, List.map_append, List.map_cons,
      joinSep_map f sep (w2 :: ws), List.map_cons, List.map_cons]
    rfl

theorem joinSep_chars {sep : Char} :
    ∀ {W : List (List Char)} {c : Char}, c ∈ joinSep sep W →
      c = sep ∨ ∃ w ∈ W, c ∈ w
  | [], c, h => by cases h
  | [w], c, h => Or.inr ⟨w, by simp, h⟩
  | w :: w2 :: ws, c, h => by
    rw [joinSep] at h
    rcases List.mem_append.mp h with h | h
    · exact Or.inr ⟨w, by simp, h⟩
    · rcases List.mem_cons.mp h with rfl | h
      · exact Or.inl rfl
      · rcases joinSep_chars h with h | ⟨w3, hw3, hc⟩
        · exact Or.inl h
        · exact Or.inr ⟨w3, by simp [hw3], hc⟩

theorem joinSep_cons_shape {s e : Char} {x : List Char}
    {W : List (List Char)} :
    ∃ t, joinSep s ((e :: x) :: W) = e :: t := by
  cases W with
  | nil => exact ⟨x, rfl⟩
  | cons w2 ws => exact ⟨x ++ s :: joinSep s (w2 :: ws), rfl⟩

theorem joinSep_dropWhile_id {p : Char → Bool} {sep : Char}
    {W : List (List Char)} (hW : ∀ w ∈ W, w ≠ [] ∧ ∀ c ∈ w, p c = false) :
    (joinSep sep W).dropWhile p = joinSep sep W := by
  match W with
  | [] => rfl
  | w :: ws =>
    match w with
    | [] => exact absurd rfl (hW [] (by simp)).1
    | e :: x =>
      obtain ⟨t, ht⟩ := joinSep_cons_shape (s := sep) (e := e) (x := x) (W := ws)
      rw [ht]
      exact List.dropWhile_cons_of_neg
        (by simp [(hW (e :: x) (by simp)).2 e (by simp)])

theorem joinSep_append_single {sep : Char} {v : List Char} :
    ∀ {W : List (List Char)}, W ≠ [] →
      joinSep sep (W ++ [v]) = joinSep sep W ++ sep :: v
  | [], h => absurd rfl h
  | [w], _ => rfl
  | w :: w2 :: ws, _ => by
    rw [List.cons_append, joinSep_cons_of_ne_nil (by simp),
      joinSep_cons_of_ne_nil (W := w2 :: ws) (by simp),
      joinSep_append_single (W := w2 :: ws) (by simp)]
    simp

theorem joinSep_reverse {s : Char} :
    ∀ {W : List (List Char)},
      (joinSep s W).reverse = joinSep s ((W.map List.reverse).reverse)
  | [] => rfl
  | [w] => rfl
  | w :: w2 :: ws => by
    have IH := joinSep_reverse (s := s) (W := w2 :: ws)
    have h1 : ((w :: w2 :: ws).map List.reverse).reverse =
        ((w2 :: ws).map List.reverse).reverse ++ [w.reverse] := by
      rw [List.map_cons, List.reverse_cons]
    rw [h1, joinSep_append_single (by simp), ← IH,
      joinSep_cons_of_ne_nil (by simp), List.reverse_append,
      List.reverse_cons]
    simp

theorem reverse_words_spec {p : Char → Bool} {W : List (List Char)}
    (hW : ∀ w ∈ W, w ≠ [] ∧ ∀ c ∈ w, p c = false) :
    ∀ w ∈ (W.map List.reverse).reverse, w ≠ [] ∧ ∀ c ∈ w, p c = false := by
  intro w hw
  rw [List.mem_reverse, List.mem_map] at hw
  obtain ⟨v, hv, rfl⟩ := hw
  refine ⟨by simp [(hW v hv).1], fun c hc => (hW v hv).2 c (List.mem_reverse.mp hc)⟩

theorem joinSep_trimBy_id {p : Char → Bool} {sep : Char}
    {W : List (List Char)} (hW : ∀ w ∈ W, w ≠ [] ∧ ∀ c ∈ w, p c = false) :
    trimBy p (joinSep sep W) = joinSep sep W := by
  unfold trimBy
  rw [joinSep_dropWhile_id hW]
  unfold rdropW
  rw [joinSep_reverse, joinSep_dropWhile_id (reverse_words_spec hW),
    ← joinSep_reverse, List.reverse_reverse]

theorem joinSep_squash {p : Char → Bool} {rep sep : Char}
    (hsep : p sep = true) :
    ∀ {W : List (List Char)}, (∀ w ∈ W, w ≠ [] ∧ ∀ c ∈ w, p c = false) →
      squashRuns p rep (joinSep sep W) = joinSep rep W
  | [], _ => by rw [joinSep_nil, squashRuns_nil, joinSep_nil]
  | [w], hW => by
    rw [joinSep_single, joinSep_single,
      squashRuns_id_of_all_neg (hW w (by simp)).2]
  | w :: w2 :: ws, hW => by
    have hw2 : ∀ v ∈ w2 :: ws, v ≠ [] ∧ ∀ c ∈ v, p c = false := by
      intro v hv
      exact hW v (by simp [List.mem_cons.mp hv])
    rw [joinSep, squashRuns_word_append (hW w (by simp)).2,
      squashRuns_cons_pos hsep, joinSep_dropWhile_id hw2,
      joinSep_squash hsep hw2, joinSep]

theorem dropOneLeading_id {c : Char} {l : List Char}
    (h : l = [] ∨ ∃ e t, l = e :: t ∧ e ≠ c) :
    dropOneLeading c l = l := by
  rcases h with rfl | ⟨e, t, rfl, he⟩
  · rfl
  · rw [dropOneLeading, if_neg he]

theorem trimEdgeHyphens_joinSep_id {W : List (List Char)}
    (hW : ∀ w ∈ W, w ≠ [] ∧ ∀ c ∈ w, c ≠ '-') :
    trimEdgeHyphens (joinSep '-' W) = joinSep '-' W := by
  have hW2 : ∀ w ∈ W, w ≠ [] ∧ ∀ c ∈ w, (decide (c = '-')) = false := by
    intro w hw
    exact ⟨(hW w hw).1, fun c hc => by simp [(hW w hw).2 c hc]⟩
  have hshape : ∀ (V : List (List Char)),
      (∀ w ∈ V, w ≠ [] ∧ ∀ c ∈ w, c ≠ '-') →
      dropOneLeading '-' (joinSep '-' V) = joinSep '-' V := by
    intro V hV
    match V with
    | [] => rfl
    | w :: ws =>
      match w with
      | [] => exact absurd rfl (hV [] (by simp)).1
      | e :: x =>
        obtain ⟨t, ht⟩ := joinSep_cons_shape (s := '-') (e := e) (x := x)
          (W := ws)
        rw [ht]
        exact dropOneLeading_id
          (Or.inr ⟨e, t, rfl, (hV (e :: x) (by simp)).2 e (by simp)⟩)
  unfold trimEdgeHyphens
  rw [hshape W hW]
  unfold dropOneTrailing
  rw [joinSep_reverse, hshape ((W.map List.reverse).reverse) ?hrev,
    ← joinSep_reverse, List.reverse_reverse]
  case hrev =>
    intro w hw
    rw [List.mem_reverse, List.mem_map] at hw
    obtain ⟨v, hv, rfl⟩ := hw
    exact ⟨by simp [(hW v hv).1],
      fun c hc => (hW v hv).2 c (List.mem_reverse.mp hc)⟩

/-! ## Canonical form of `createSlug` -/

theorem nfdStr_id {l : List Char} (h : ∀ c ∈ l, nfdChar c = [c]) :
    nfdStr l = l := by
  unfold nfdStr
  induction l with
  | nil => rfl
  | cons c cs ih =>
    rw [List.map_cons, List.flatten_cons, h c (by simp),
      ih (fun d hd => h d (by simp [hd]))]
    rfl

theorem slugBase_chars {T : List Char} :
    ∀ c ∈ slugBase T, jsWs c = false → isLowerAlnum c = true := by
  intro c hc hws
  unfold slugBase at hc
  rw [List.mem_map] at hc
  obtain ⟨d, _, rfl⟩ := hc
  unfold keepOrSpace at hws ⊢
  by_cases hk : isSlugKeep d = true
  · rw [if_pos hk] at hws ⊢
    rcases Bool.or_eq_true _ _ ▸ hk with h | h
    · exact h
    · rw [h] at hws; cases hws
  · rw [if_neg hk] at hws
    cases hws.symm.trans (by decide : jsWs ' ' = true)

theorem slugBase_words {T : List Char} :
    ∀ w ∈ wordsOf jsWs (slugBase T),
      w ≠ [] ∧ ∀ c ∈ w, isLowerAlnum c = true := by
  intro w hw
  obtain ⟨hne, hall⟩ := wordsOf_spec (slugBase T) w hw
  exact ⟨hne, fun c hc =>
    slugBase_chars c (hall c hc).2 (hall c hc).1⟩

/-- `createSlug` computes the hyphen-join of the whitespace-words of its
normalized base; the final hyphen-collapsing and edge-trimming stages are
identities on that shape. -/
theorem createSlug_canonical (T : List Char) :
    createSlug T = joinSep '-' (wordsOf jsWs (slugBase T)) := by
  have hW := slugBase_words (T := T)
  have hWneg : ∀ w ∈ wordsOf jsWs (slugBase T),
      w ≠ [] ∧ ∀ c ∈ w, jsWs c = false := by
    intro w hw
    exact ⟨(hW w hw).1, fun c hc =>
      (isLowerAlnum_basic ((hW w hw).2 c hc)).1⟩
  have hWhyp : ∀ w ∈ wordsOf jsWs (slugBase T),
      w ≠ [] ∧ ∀ c ∈ w, (decide (c = '-')) = false := by
    intro w hw
    exact ⟨(hW w hw).1, fun c hc => by
      simp [(isLowerAlnum_basic ((hW w hw).2 c hc)).2.2.1]⟩
  have hWne : ∀ w ∈ wordsOf jsWs (slugBase T),
      w ≠ [] ∧ ∀ c ∈ w, c ≠ '-' := by
    intro w hw
    exact ⟨(hW w hw).1, fun c hc =>
      (isLowerAlnum_basic ((hW w hw).2 c hc)).2.2.1⟩
  show trimEdgeHyphens
      (squashRuns (fun c => c = '-') '-'
        (squashRuns jsWs '-' (trimBy jsWs (slugBase T)))) = _
  rw [squash_trim_eq_joinSep,
    joinSep_squash (by simp : (decide (('-' : Char) = '-')) = true) hWhyp,
    trimEdgeHyphens_joinSep_id hWne]

/-- Characters of a canonical slug: lowercase alphanumerics and hyphens. -/
theorem createSlug_chars {T : List Char} :
    ∀ c ∈ createSlug T, isLowerAlnum c = true ∨ c = '-' := by
  intro c hc
  rw [createSlug_canonical] at hc
  rcases joinSep_chars hc with rfl | ⟨w, hw, hcw⟩
  · exact Or.inr rfl
  · exact Or.inl ((slugBase_words w hw).2 c hcw)

/-- `createSlug` is the identity on any hyphen-join of non-empty
lowercase-alphanumeric words. -/
theorem createSlug_fixed {W : List (List Char)}
    (hW : ∀ w ∈ W, w ≠ [] ∧ ∀ c ∈ w, isLowerAlnum c = true) :
    createSlug (joinSep '-' W) = joinSep '-' W := by
  have hmem : ∀ c ∈ joinSep '-' W, isLowerAlnum c = true ∨ c = '-' := by
    intro c hc
    rcases joinSep_chars hc with rfl | ⟨w, hw, hcw⟩
    · exact Or.inr rfl
    · exact Or.inl ((hW w hw).2 c hcw)
  have h1 : (joinSep '-' W).map jsToLowerChar = joinSep '-' W := by
    apply map_id_of_mem
    intro c hc
    rcases hmem c hc with h | rfl
    · exact (isLowerAlnum_basic h).2.2.2.2.1
    · exact hyphen_basic.2.2.2.2.1
  have h2 : nfdStr (joinSep '-' W) = joinSep '-' W := by
    apply nfdStr_id
    intro c hc
    rcases hmem c hc with h | rfl
    · exact (isLowerAlnum_basic h).2.2.2.1
    · exact hyphen_basic.2.2.2.1
  have h3 : (joinSep '-' W).filter (fun c => !(isQuoteChar c)) =
      joinSep '-' W := by
    rw [List.filter_eq_self]
    intro c hc
    rcases hmem c hc with h | rfl
    · simp [(isLowerAlnum_basic h).2.1]
    · simp [hyphen_basic.2.1]
  have h4 : List.map keepOrSpace (joinSep '-' W) = joinSep ' ' W := by
    rw [joinSep_map keepOrSpace '-' W,
      (by decide : keepOrSpace '-' = ' ')]
    congr 1
    rw [List.map_congr_left (g := id) ?hg, List.map_id]
    case hg =>
      intro w hw
      apply map_id_of_mem
      intro c hc
      unfold keepOrSpace
      rw [if_pos (isLowerAlnum_basic ((hW w hw).2 c hc)).2.2.2.2.2]
  have hWs : ∀ w ∈ W, w ≠ [] ∧ ∀ c ∈ w, jsWs c = false := by
    intro w hw
    exact ⟨(hW w hw).1, fun c hc => (isLowerAlnum_basic ((hW w hw).2 c hc)).1⟩
  have hWhyp : ∀ w ∈ W, w ≠ [] ∧ ∀ c ∈ w, (decide (c = '-')) = false := by
    intro w hw
    exact ⟨(hW w hw).1, fun c hc => by
      simp [(isLowerAlnum_basic ((hW w hw).2 c hc)).2.2.1]⟩
  have hWne : ∀ w ∈ W, w ≠ [] ∧ ∀ c ∈ w, c ≠ '-' := by
    intro w hw
    exact ⟨(hW w hw).1, fun c hc =>
      (isLowerAlnum_basic ((hW w hw).2 c hc)).2.2.1⟩
  show trimEdgeHyphens
      (squashRuns (fun c => c = '-') '-'
        (squashRuns jsWs '-'
          (trimBy jsWs
            (List.map keepOrSpace
              ((nfdStr ((joinSep '-' W).map jsToLowerChar)).filter
                (fun c => !(isQuoteChar c))))))) = _
  rw [h1, h2, h3, h4, joinSep_trimBy_id hWs,
    joinSep_squash (by decide : jsWs ' ' = true) hWs,
    joinSep_squash (by simp : (decide (('-' : Char) = '-')) = true) hWhyp,
    trimEdgeHyphens_joinSep_id hWne]

/-- `createSlug` is idempotent. -/
theorem createSlug_idem (T : List Char) :
    createSlug (createSlug T) = createSlug T := by
  rw [createSlug_canonical T]
  exact createSlug_fixed slugBase_words

/-! ## Canonical forms of `cleanTitleForMatch` and `searchStringOf` -/

theorem cleanTitleForMatch_canonical (T : List Char) :
    cleanTitleForMatch T =
      joinSep ' '
        (wordsOf jsWs
          (((nfdStr (T.map jsToLowerChar)).filter
              (fun c => !(isQuoteChar c))).filter isSlugKeep)) := by
  unfold cleanTitleForMatch
  rw [trim_squash_eq_joinSep jsWs ' ' (by decide)]

theorem searchStringOf_canonical (seg : List Char) :
    searchStringOf seg =
      joinSep ' '
        (wordsOf jsWs
          (List.map keepOrSpace
            (seg.map (fun c => if c = '-' then ' ' else c)))) := by
  unfold searchStringOf
  rw [trim_squash_eq_joinSep jsWs ' ' (by decide)]

theorem allowed_lowered {c : Char} (h : allowedTitleChar c = true) :
    isLowerAlnum (jsToLowerChar c) = true ∨ jsWs (jsToLowerChar c) = true ∨
      isQuoteChar (jsToLowerChar c) = true := by
  unfold allowedTitleChar at h
  rcases Bool.or_eq_true _ _ ▸ h with h1 | h1
  rcases Bool.or_eq_true _ _ ▸ h1 with h2 | h2
  rcases Bool.or_eq_true _ _ ▸ h2 with h3 | h3
  · -- uppercase: lowers into a–z
    rw [isAsciiUpper_iff] at h3
    left
    rw [isLowerAlnum_iff, jsToLowerChar_toNat_of_upper h3.1 h3.2]
    omega
  · -- already lowercase alnum: fixed by toLower
    left
    rw [(isLowerAlnum_basic h3).2.2.2.2.1]
    exact h3
  · -- whitespace: outside A–Z, fixed by toLower
    right; left
    rw [jsWs_iff] at h2
    rw [jsToLowerChar_eq_self (by omega)]
    rw [jsWs_iff]
    omega
  · -- quote variant: outside A–Z, fixed by toLower
    right; right
    rw [isQuoteChar_iff] at h1
    rw [jsToLowerChar_eq_self (by omega)]
    rw [isQuoteChar_iff]
    omega

theorem allowed_nfd {c : Char}
    (h : isLowerAlnum c = true ∨ jsWs c = true ∨ isQuoteChar c = true) :
    nfdChar c = [c] := by
  rcases h with h | h | h
  · exact (isLowerAlnum_basic h).2.2.2.1
  · rw [jsWs_iff] at h
    exact nfdChar_eq_self (by omega)
  · rw [isQuoteChar_iff] at h
    exact nfdChar_eq_self (by omega)

/-- Under the allowed alphabet, the slug base and the match base coincide:
both reduce to the lowered, quote-stripped title. -/
theorem allowed_bases {T : List Char}
    (h : ∀ c ∈ T, allowedTitleChar c = true) :
    slugBase T =
        (nfdStr (T.map jsToLowerChar)).filter (fun c => !(isQuoteChar c)) ∧
      ((nfdStr (T.map jsToLowerChar)).filter
          (fun c => !(isQuoteChar c))).filter isSlugKeep =
        (nfdStr (T.map jsToLowerChar)).filter (fun c => !(isQuoteChar c)) ∧
      ∀ c ∈ (nfdStr (T.map jsToLowerChar)).filter (fun c => !(isQuoteChar c)),
        isLowerAlnum c = true ∨ jsWs c = true := by
  have hlow : ∀ c ∈ T.map jsToLowerChar,
      isLowerAlnum c = true ∨ jsWs c = true ∨ isQuoteChar c = true := by
    intro c hc
    rw [List.mem_map] at hc
    obtain ⟨d, hd, rfl⟩ := hc
    exact allowed_lowered (h d hd)
  have hnfd : nfdStr (T.map jsToLowerChar) = T.map jsToLowerChar :=
    nfdStr_id fun c hc => allowed_nfd (hlow c hc)
  have hs3 : ∀ c ∈ (nfdStr (T.map jsToLowerChar)).filter
      (fun c => !(isQuoteChar c)), isLowerAlnum c = true ∨ jsWs c = true := by
    intro c hc
    rw [hnfd] at hc
    rw [List.mem_filter] at hc
    rcases hlow c hc.1 with h1 | h1 | h1
    · exact Or.inl h1
    · exact Or.inr h1
    · rw [h1] at hc; simp at hc
  refine ⟨?_, ?_, hs3⟩
  · unfold slugBase
    apply map_id_of_mem
    intro c hc
    unfold keepOrSpace
    rw [if_pos]
    unfold isSlugKeep
    rcases hs3 c hc with h1 | h1 <;> simp [h1]
  · rw [List.filter_eq_self]
    intro c hc
    unfold isSlugKeep
    rcases hs3 c hc with h1 | h1 <;> simp [h1]

/-- Characters of a canonical slug are fixed by lowercasing. -/
theorem createSlug_lower_id (T : List Char) :
    (createSlug T).map jsToLowerChar = createSlug T := by
  apply map_id_of_mem
  intro c hc
  rcases createSlug_chars c hc with h | rfl
  · exact (isLowerAlnum_basic h).2.2.2.2.1
  · exact hyphen_basic.2.2.2.2.1

/-- The round-trip on the allowed alphabet: converting the canonical slug
back to a search string yields exactly the match key. -/
theorem roundTrip_of_allowed {T : List Char}
    (h : ∀ c ∈ T, allowedTitleChar c = true) :
    searchStringOf (createSlug T) = cleanTitleForMatch T := by
  obtain ⟨hbase, hfilt, hs3⟩ := allowed_bases h
  have hWwords := slugBase_words (T := T)
  rw [hbase] at hWwords
  have hW : ∀ w ∈ wordsOf jsWs
      ((nfdStr (T.map jsToLowerChar)).filter (fun c => !(isQuoteChar c))),
      w ≠ [] ∧ ∀ c ∈ w, isLowerAlnum c = true := hWwords
  have hWs : ∀ w ∈ wordsOf jsWs
      ((nfdStr (T.map jsToLowerChar)).filter (fun c => !(isQuoteChar c))),
      w ≠ [] ∧ ∀ c ∈ w, jsWs c = false := by
    intro w hw
    exact ⟨(hW w hw).1, fun c hc => (isLowerAlnum_basic ((hW w hw).2 c hc)).1⟩
  have hslug : createSlug T =
      joinSep '-' (wordsOf jsWs
        ((nfdStr (T.map jsToLowerChar)).filter (fun c => !(isQuoteChar c)))) := by
    rw [createSlug_canonical, hbase]
  have h2s : (joinSep '-' (wordsOf jsWs
        ((nfdStr (T.map jsToLowerChar)).filter (fun c => !(isQuoteChar c))))).map
        (fun c => if c = '-' then ' ' else c) =
      joinSep ' ' (wordsOf jsWs
        ((nfdStr (T.map jsToLowerChar)).filter (fun c => !(isQuoteChar c)))) := by
    rw [joinSep_map]
    rw [if_pos rfl]
    congr 1
    rw [List.map_congr_left (g := id) ?hg, List.map_id]
    case hg =>
      intro w hw
      apply map_id_of_mem
      intro c hc
      rw [if_neg (isLowerAlnum_basic ((hW w hw).2 c hc)).2.2.1]
  have hks : List.map keepOrSpace (joinSep ' ' (wordsOf jsWs
        ((nfdStr (T.map jsToLowerChar)).filter (fun c => !(isQuoteChar c))))) =
      joinSep ' ' (wordsOf jsWs
        ((nfdStr (T.map jsToLowerChar)).filter (fun c => !(isQuoteChar c)))) := by
    apply map_id_of_mem
    intro c hc
    unfold keepOrSpace
    rcases joinSep_chars hc with rfl | ⟨w, hw, hcw⟩
    · rw [if_pos (by decide)]
    · rw [if_pos (isLowerAlnum_basic ((hW w hw).2 c hcw)).2.2.2.2.2]
  unfold searchStringOf
  rw [hslug, h2s, hks,
    joinSep_squash (by decide : jsWs ' ' = true) hWs,
    joinSep_trimBy_id hWs,
    cleanTitleForMatch_canonical, hfilt]

/-! ## `containsSub` characterization -/

theorem containsSub_iff {hay needle : List Char} :
    containsSub hay needle = true ↔
      ∃ pre post, hay = pre ++ needle ++ post := by
  unfold containsSub
  rw [List.any_eq_true]
  constructor
  · rintro ⟨i, _, hb⟩
    rw [beq_iff_eq] at hb
    refine ⟨hay.take i, (hay.drop i).drop needle.length, ?_⟩
    conv_lhs => rw [← List.take_append_drop i hay]
    conv_lhs => rw [← List.take_append_drop needle.length (hay.drop i)]
    rw [hb, List.append_assoc]
  · rintro ⟨pre, post, rfl⟩
    refine ⟨pre.length, ?_, ?_⟩
    · rw [List.mem_range]
      simp only [List.length_append]
      omega
    · rw [beq_iff_eq, List.append_assoc, List.drop_left, List.take_left]

theorem containsSub_nil_right (hay : List Char) :
    containsSub hay [] = true := by
  rw [containsSub_iff]
  exact ⟨[], hay, rfl⟩

/-! ## Claim theorems -/

/-- C2: the bot classifier returns `true` exactly when one of the fixed
crawler signatures occurs case-insensitively in the user agent, and
returns `false` on the empty string. -/
theorem isBot_characterization :
    (∀ ua : List Char,
      isBot ua = true ↔
        ∃ sig ∈ botSignatures, ∃ pre post,
          ua.map jsToLowerChar = pre ++ sig.map jsToLowerChar ++ post) ∧
    isBot [] = false := by
  constructor
  · intro ua
    unfold isBot
    rw [List.any_eq_true]
    constructor
    · rintro ⟨sig, hs, hc⟩
      exact ⟨sig, hs, containsSub_iff.mp hc⟩
    · rintro ⟨sig, hs, h⟩
      exact ⟨sig, hs, containsSub_iff.mpr h⟩
  · decide

/-- C3: a request whose path does not match `/poetry/(.+)`, or whose
user agent is not classified as a bot, is always passed through as the
forwarded original request. -/
theorem passThrough_of_nonPoetry_or_nonBot (env : Env) (net : Net)
    (req : Request)
    (h : poetryRest req.pathname = none ∨ isBot req.userAgent = false) :
    handleFetch env net req = .passThrough req := by
  unfold handleFetch
  rcases h with h | h
  · rw [h]
  · cases hm : poetryRest req.pathname with
    | none => rfl
    | some rest =>
      rw [h]
      rfl

theorem passThrough_of_nonPoetry_or_nonBot_witness :
    handleFetch envSolo netKarma
        { pathname := "/about".data, userAgent := "Googlebot".data } =
      .passThrough
        { pathname := "/about".data, userAgent := "Googlebot".data } :=
  passThrough_of_nonPoetry_or_nonBot envSolo netKarma _ (Or.inl (by decide))

/-- C8: canonical-slug normalization is idempotent — on every string in
the range of `createSlug`, `createSlug` is the identity. -/
theorem createSlug_idempotent_on_range (s T : List Char)
    (h : s = createSlug T) : createSlug s = s := by
  subst h
  exact createSlug_idem T

theorem createSlug_idempotent_on_range_witness :
    createSlug (createSlug "Karma’s Sequel".data) =
      createSlug "Karma’s Sequel".data :=
  createSlug_idempotent_on_range _ "Karma’s Sequel".data rfl

/-- C9: the handler never produces its own error response — every request
yields either the forwarded original request or a rendered response with
status 200 and content type `text/html; charset=utf-8`. -/
theorem handler_no_error_response (env : Env) (net : Net) (req : Request) :
    handleFetch env net req = .passThrough req ∨
      ∃ body, handleFetch env net req = .rendered 200 ctHtml body := by
  unfold handleFetch
  dsimp only
  repeat' split
  all_goals first
    | exact Or.inl rfl
    | exact Or.inr ⟨_, rfl⟩

/-- C4: a failed collection fetch is non-fatal — with the first
collection's fetch failing and the second succeeding with a matching
book, the resolver returns the second collection's book; and a collection
whose configured source URL is absent (or empty) is skipped without any
network fetch (the fetch trace is unchanged). -/
theorem failedFetch_nonFatal_and_absent_skipped :
    (∀ (net : Net) (slug kA uA kB uB : List Char) (dataB : List Book)
        (b : Book) (rest : List (List Char × Option (List Char))),
      uA ≠ [] → uB ≠ [] → net uA = none → net uB = some dataB →
      dataB.find? (fun bk => bookMatches slug bk) = some b →
      resolveBook net slug ((kA, some uA) :: (kB, some uB) :: rest) =
        some (kB, b)) ∧
    (∀ (net : Net) (slug k : List Char)
        (rest : List (List Char × Option (List Char))),
      resolveBook net slug ((k, none) :: rest) = resolveBook net slug rest ∧
      fetchTrace net slug ((k, none) :: rest) = fetchTrace net slug rest ∧
      resolveBook net slug ((k, some []) :: rest) =
        resolveBook net slug rest ∧
      fetchTrace net slug ((k, some []) :: rest) =
        fetchTrace net slug rest) := by
  constructor
  · intro net slug kA uA kB uB dataB b rest hA hB hnA hnB hfind
    have hA2 : uA.isEmpty = false := by simp [hA]
    have hB2 : uB.isEmpty = false := by simp [hB]
    simp [resolveBook, hA2, hnA, hB2, hnB, hfind]
  · intro net slug k rest
    exact ⟨rfl, rfl, rfl, rfl⟩

theorem failedFetch_nonFatal_witness :
    resolveBook netFailFirst "hilton".data
        [("frith-hilton".data, some "u1".data),
         ("dr-carl-hill".data, some "u2".data)] =
      some ("dr-carl-hill".data, bookFrith) :=
  failedFetch_nonFatal_and_absent_skipped.1 netFailFirst "hilton".data
    "frith-hilton".data "u1".data "dr-carl-hill".data "u2".data
    [bookFrith] bookFrith [] (by decide) (by decide) (by decide) (by decide)
    (by decide)

/-- C5: book matching is symmetric substring containment on slugs, the
first matching book of the first collection producing a match wins, and a
book segment `hilton` resolves the fixture book titled
`Frith Hilton: Selected Works` (canonical slug
`frith-hilton-selected-works`). -/
theorem bookResolution_containment_firstMatch :
    (∀ (slug : List Char) (b : Book),
      bookMatches slug b = true ↔
        ((∃ pre post, createSlug b.bookTitle = pre ++ slug ++ post) ∨
         (∃ pre post, slug = pre ++ createSlug b.bookTitle ++ post))) ∧
    (∀ (net : Net) (slug key u : List Char)
        (rest : List (List Char × Option (List Char)))
        (pre post : List Book) (b : Book),
      u ≠ [] → net u = some (pre ++ b :: post) →
      (∀ b2 ∈ pre, bookMatches slug b2 = false) →
      bookMatches slug b = true →
      resolveBook net slug ((key, some u) :: rest) = some (key, b)) ∧
    createSlug "Frith Hilton: Selected Works".data =
      "frith-hilton-selected-works".data ∧
    resolveBook netFrith "hilton".data (collectionsOf envSolo) =
      some ("frith-hilton".data, bookFrith) := by
  refine ⟨?_, ?_, by decide, by decide⟩
  · intro slug b
    unfold bookMatches
    rw [Bool.or_eq_true, containsSub_iff, containsSub_iff]
  · intro net slug key u rest pre post b hu hnet hpre hb
    have hu2 : u.isEmpty = false := by simp [hu]
    have hfind : (pre ++ b :: post).find? (fun bk => bookMatches slug bk) =
        some b := by
      rw [List.find?_append,
        List.find?_eq_none.mpr (fun x hx => by simp [hpre x hx]),
        Option.none_or, List.find?_cons_of_pos _ hb]
    simp [resolveBook, hu2, hnet, hfind]

theorem bookResolution_firstMatch_witness :
    resolveBook netTwoBooks "karma".data
        [("frith-hilton".data, some "u1".data)] =
      some ("frith-hilton".data, bookKarma) :=
  bookResolution_containment_firstMatch.2.1 netTwoBooks "karma".data
    "frith-hilton".data "u1".data [] [] [bookFrith] bookKarma
    (by decide) (by decide) (by decide) (by decide)

/-- C10: an empty book segment (e.g. from a `/poetry//…` path) trivially
satisfies the containment test for every book, so the resolver returns
the first book of the first collection that is configured and fetches
successfully with a non-empty list, instead of reporting not-found. -/
theorem emptyBookSegment_matchesFirstBook :
    (∀ b : Book, bookMatches [] b = true) ∧
    (∀ (net : Net) (key u : List Char) (b : Book) (data2 : List Book)
        (rest pre : List (List Char × Option (List Char))),
      (∀ col ∈ pre, col.2 = none ∨ col.2 = some [] ∨
        (∃ u2, col.2 = some u2 ∧ net u2 = none)) →
      u ≠ [] → net u = some (b :: data2) →
      resolveBook net [] (pre ++ (key, some u) :: rest) = some (key, b)) ∧
    jsSplit '/' "/x".data = [[], "x".data] ∧
    resolveBook netTwoBooks [] (collectionsOf envSolo) =
      some ("frith-hilton".data, bookKarma) := by
  have hmatch : ∀ b : Book, bookMatches [] b = true := by
    intro b
    simp [bookMatches, containsSub_nil_right]
  refine ⟨hmatch, ?_, by decide, by decide⟩
  intro net key u b data2 rest pre hpre hu hnet
  induction pre with
  | nil =>
    have hu2 : u.isEmpty = false := by simp [hu]
    have hfind : (b :: data2).find? (fun bk => bookMatches [] bk) = some b :=
      List.find?_cons_of_pos _ (hmatch b)
    simp [resolveBook, hu2, hnet, hfind]
  | cons col pre ih =>
    obtain ⟨k2, j2⟩ := col
    have htail := ih (fun c hc => hpre c (by simp [hc]))
    rcases hpre (k2, j2) (by simp) with h | h | ⟨u2, h, hn2⟩
    · simp only at h
      subst h
      rw [List.cons_append]
      exact htail
    · simp only at h
      subst h
      rw [List.cons_append]
      exact htail
    · simp only at h
      subst h
      rw [List.cons_append]
      by_cases hu2e : u2.isEmpty = true
      · show resolveBook net [] ((k2, some u2) :: (pre ++ (key, some u) :: rest)) = _
        unfold resolveBook
        dsimp only
        rw [if_pos hu2e]
        exact htail
      · show resolveBook net [] ((k2, some u2) :: (pre ++ (key, some u) :: rest)) = _
        unfold resolveBook
        dsimp only
        rw [if_neg hu2e, hn2]
        exact htail

/-- C6: poem resolution is exact match-key equality, not substring — the
segment `karmas-sequel` resolves fixture poem #1 and the handler renders
it, while the segment `karma-sequel` (missing the `s`) finds no poem and
the handler passes through to the origin. -/
theorem poemResolution_exactMatch :
    bookKarma.poems.find?
        (fun p => cleanTitleForMatch p.title ==
          searchStringOf "karmas-sequel".data) = some poemKarma ∧
    bookKarma.poems.find?
        (fun p => cleanTitleForMatch p.title ==
          searchStringOf "karma-sequel".data) = none ∧
    handleFetch envSolo netKarma reqKarmaGood =
      .rendered 200 ctHtml
        (.poemDetail bookKarma poemKarma "<p>Seed text</p>".data
          "https://www.frithhilton.com.ng/poetry/karma-book".data
          "https://www.frithhilton.com.ng/poetry/karma-book/karmas-sequel".data
          "frith-hilton".data "karma-book".data) ∧
    handleFetch envSolo netKarma reqKarmaBad = .passThrough reqKarmaBad := by
  refine ⟨by decide, by decide, by decide, by decide⟩

/-- C7: a resolved poem whose entry in the book's content mapping is
absent renders the fixed non-empty placeholder (whose tag-stripped text
is `Full poem available in the book.`) rather than an empty string, and
the handler serves it in a normal rendered response. -/
theorem missingContent_placeholder :
    (∀ (b : Book) (n : Nat), lookupContent b n = none →
      poemTextOf b n = placeholderText ∧ poemTextOf b n ≠ [] ∧
      trimBy jsWs (stripTags (poemTextOf b n)) =
        "Full poem available in the book.".data) ∧
    handleFetch envSolo netBare reqLone =
      .rendered 200 ctHtml
        (.poemDetail bookBare poemLone placeholderText
          "https://www.frithhilton.com.ng/poetry/bare-book".data
          "https://www.frithhilton.com.ng/poetry/bare-book/lone-poem".data
          "frith-hilton".data "bare-book".data) := by
  constructor
  · intro b n h
    unfold poemTextOf
    rw [h]
    exact ⟨rfl, by decide, by decide⟩
  · decide

theorem missingContent_placeholder_witness :
    lookupContent bookBare 2 = none ∧ poemTextOf bookBare 2 = placeholderText :=
  ⟨by decide, (missingContent_placeholder.1 bookBare 2 (by decide)).1⟩

/-- C1 (counterexample): the slug → search-string round-trip fails on the
hyphenated title `self-portrait` — the search string recovered from the
canonical slug is `self portrait` while the match key is `selfportrait`,
so the poem resolver cannot find the poem from its own canonical URL. -/
theorem slug_roundTrip_fails_on_hyphenated_title :
    ¬ (searchStringOf (createSlug poemSelf.title) =
        cleanTitleForMatch poemSelf.title) ∧
    bookSelf.poems.find?
        (fun p => cleanTitleForMatch p.title ==
          searchStringOf ((createSlug poemSelf.title).map jsToLowerChar)) =
      none := by
  refine ⟨by decide, by decide⟩

/-- C1 (amended): for every title over ASCII letters, digits, whitespace
and the stripped quote variants, converting the canonical slug back into
a search string yields exactly the match key, so the poem resolver
recovers any such poem from its own canonical URL. -/
theorem slug_roundTrip_on_allowed_titles (T : List Char)
    (h : ∀ c ∈ T, allowedTitleChar c = true) :
    searchStringOf (createSlug T) = cleanTitleForMatch T ∧
    ∀ (ps : List Poem) (pm : Poem), pm ∈ ps → pm.title = T →
      (ps.find? (fun p => cleanTitleForMatch p.title ==
        searchStringOf ((createSlug T).map jsToLowerChar))).isSome = true := by
  have hmain := roundTrip_of_allowed h
  refine ⟨hmain, ?_⟩
  intro ps pm hmem htit
  have hpred : (cleanTitleForMatch pm.title ==
      searchStringOf ((createSlug T).map jsToLowerChar)) = true := by
    rw [htit, createSlug_lower_id, hmain]
    simp
  simp only [List.find?_isSome]
  exact ⟨pm, hmem, hpred⟩

theorem slug_roundTrip_on_allowed_titles_witness :
    searchStringOf (createSlug "Karma’s Sequel".data) =
      cleanTitleForMatch "Karma’s Sequel".data :=
  (slug_roundTrip_on_allowed_titles "Karma’s Sequel".data (by decide)).1

theorem emptyBookSegment_witness :
    resolveBook netTwoBooks []
        ([("dr-carl-hill".data, none)] ++
          ("frith-hilton".data, some "u1".data) :: []) =
      some ("frith-hilton".data, bookKarma) :=
  emptyBookSegment_matchesFirstBook.2.1 netTwoBooks "frith-hilton".data
    "u1".data bookKarma [bookFrith] [] [("dr-carl-hill".data, none)]
    (fun col hc => by
      simp only [List.mem_singleton] at hc
      subst hc
      exact Or.inl rfl)
    (by decide) (by decide)
